import Mathlib

/-!
Verification of the Symbol-to-Methods Resolution Engine of the
rust-docs-sidebar editor extension.

The definitions below are a shallow embedding of the TypeScript source
(`extension.ts`): JavaScript strings become `String`/`List Char`, the
regular expressions used by the extension are embedded as explicit
backtracking matchers with JavaScript leftmost/greedy semantics, and the
line-scanning loops of `getStructMethods` become fuel-indexed recursive
functions over the list of grep output lines.
-/

/-! ## JavaScript string primitives -/

/-- The JavaScript `\s` character class (also used by `String.prototype.trim`). -/
def isJsWs (c : Char) : Bool :=
  c = ' ' || c = '\t' || c = '\n' || c = '\r' || c = '\x0b' || c = '\x0c' ||
  c.val = 0x00a0 || c.val = 0x1680 || (0x2000 ≤ c.val && c.val ≤ 0x200a) ||
  c.val = 0x2028 || c.val = 0x2029 || c.val = 0x202f || c.val = 0x205f ||
  c.val = 0x3000 || c.val = 0xfeff

/-- `hasPfxL s pat`: `pat` is a prefix of `s` (char lists). -/
def hasPfxL : List Char → List Char → Bool
  | _, [] => true
  | [], _ :: _ => false
  | c :: cs, p :: ps => c = p && hasPfxL cs ps

/-- JavaScript `String.prototype.startsWith`. -/
def strHasPfx (s pat : String) : Bool := hasPfxL s.data pat.data

/-- `hasSubL s pat`: `pat` occurs as a contiguous sublist of `s`. -/
def hasSubL : List Char → List Char → Bool
  | [], pat => pat.isEmpty
  | c :: rest, pat => hasPfxL (c :: rest) pat || hasSubL rest pat

/-- JavaScript `String.prototype.includes`. -/
def strIncludes (s pat : String) : Bool := hasSubL s.data pat.data

/-- JavaScript `String.prototype.endsWith`. -/
def strEndsWith (s pat : String) : Bool := hasPfxL s.data.reverse pat.data.reverse

/-- JavaScript `String.prototype.trim` on char lists. -/
def trimL (l : List Char) : List Char :=
  ((l.dropWhile isJsWs).reverse.dropWhile isJsWs).reverse

/-- JavaScript `String.prototype.trim`. -/
def jsTrim (s : String) : String := ⟨trimL s.data⟩

/-- JavaScript `s.substring(n)` (drop the first `n` characters). -/
def strDrop (s : String) (n : Nat) : String := ⟨s.data.drop n⟩

/-- Whether the character `c` occurs in `s` (JavaScript `includes` for one char). -/
def containsChar (s : String) (c : Char) : Bool := s.data.any (fun x => x = c)

/-- The apostrophe character. -/
def charApos : Char := Char.ofNat 39

/-- The opening-brace character. -/
def charLBrace : Char := '\x7b'

/-- No two adjacent characters are both JavaScript whitespace. -/
def noTwoWsL : List Char → Bool
  | [] => true
  | [_] => true
  | a :: b :: rest => !(isJsWs a && isJsWs b) && noTwoWsL (b :: rest)

/-- No two adjacent whitespace characters in a string. -/
def noTwoWs (s : String) : Bool := noTwoWsL s.data

/-- JavaScript `replace(/\s+/g, ' ')` on char lists: every maximal whitespace
run becomes a single space. -/
def collapseWsL : List Char → List Char
  | [] => []
  | [c] => if isJsWs c then [' '] else [c]
  | a :: b :: cs =>
    if isJsWs a && isJsWs b then collapseWsL (b :: cs)
    else (if isJsWs a then ' ' else a) :: collapseWsL (b :: cs)

/-- JavaScript `replace(/\s+/g, ' ')`. -/
def collapseWs (s : String) : String := ⟨collapseWsL s.data⟩

/-- JavaScript `replace(/\(\s+/g, '(')` on char lists.  The flag records
that we are inside the whitespace run following a matched `(`. -/
def parenOpenFixAux : Bool → List Char → List Char
  | _, [] => []
  | skipMode, c :: cs =>
    if skipMode && isJsWs c then parenOpenFixAux true cs
    else if c = '(' && (cs.head?.any isJsWs) then '(' :: parenOpenFixAux true cs
    else c :: parenOpenFixAux false cs

/-- JavaScript `replace(/\(\s+/g, '(')`. -/
def parenOpenFix (s : String) : String := ⟨parenOpenFixAux false s.data⟩

/-- JavaScript `replace(/\s+\)/g, ')')` on char lists.  `pend` buffers a
pending whitespace run (reversed); the run is dropped when a `)` follows. -/
def parenCloseFixAux : List Char → List Char → List Char
  | pend, [] => pend.reverse
  | pend, c :: cs =>
    if isJsWs c then parenCloseFixAux (c :: pend) cs
    else if c = ')' && !pend.isEmpty then ')' :: parenCloseFixAux [] cs
    else pend.reverse ++ c :: parenCloseFixAux [] cs

/-- JavaScript `replace(/\s+\)/g, ')')`. -/
def parenCloseFix (s : String) : String := ⟨parenCloseFixAux [] s.data⟩

/-- JavaScript `s.substring(0, s.indexOf(c))` for the first opening brace:
the characters before the first `\x7b`. -/
def truncAtBrace (s : String) : String := ⟨s.data.takeWhile (fun c => !(c = charLBrace))⟩

/-- Split a char list on a separator character (JavaScript `split`). -/
def splitOnCharL (c : Char) : List Char → List (List Char)
  | [] => [[]]
  | x :: xs =>
    match splitOnCharL c xs with
    | [] => [[]]
    | seg :: rest => if x = c then [] :: seg :: rest else (x :: seg) :: rest

/-- Join path segments with `/` separators. -/
def joinSlash : List (List Char) → List Char
  | [] => []
  | [s] => s
  | s :: rest => s ++ '/' :: joinSlash rest

/-- POSIX path normalization stack used by Node's `path.resolve`:
empty and `.` segments are dropped, `..` pops the previous segment. -/
def normSegs : List (List Char) → List (List Char) → List (List Char)
  | acc, [] => acc.reverse
  | acc, s :: rest =>
    if s = [] || s = ['.'] then normSegs acc rest
    else if s = ['.', '.'] then normSegs acc.tail rest
    else normSegs (s :: acc) rest

/-- Node `path.resolve(p)` relative to the process working directory `cwd`
(POSIX): prepend `cwd` when `p` is relative, then normalize segments. -/
def resolvePath (cwd p : String) : String :=
  let full := if strHasPfx p "/" then p else cwd ++ "/" ++ p
  ⟨'/' :: joinSlash (normSegs [] (splitOnCharL '/' full.data))⟩

/-! ## Constants (extension.ts lines 12-17) -/

def MIN_DOC_SENTENCES : Nat := 3
def MAX_GREP_CONTEXT_LINES : Nat := 1000
def MAX_HISTORY_ENTRIES : Nat := 20
def MAX_DOC_LINES_TO_SCAN : Nat := 30
def MAX_SIGNATURE_CONTINUATION_LINES : Nat := 20

/-! ## Identifier/path validators (extension.ts lines 20-47) -/

/-- First-character class of the regex `^[a-zA-Z_][a-zA-Z0-9_<>:,\s]*$`. -/
def isIdentStart (c : Char) : Bool := c.isAlpha || c = '_'

/-- Tail-character class of the regex `^[a-zA-Z_][a-zA-Z0-9_<>:,\s]*$`. -/
def isIdentRest (c : Char) : Bool :=
  c.isAlphanum || c = '_' || c = '<' || c = '>' || c = ':' || c = ',' || isJsWs c

/-- `isValidRustIdentifier` of extension.ts: test of
`/^[a-zA-Z_][a-zA-Z0-9_<>:,\s]*$/`. -/
def isValidRustIdentifier (name : String) : Bool :=
  match name.data with
  | [] => false
  | c :: cs => isIdentStart c && cs.all isIdentRest

/-- `isPathSafe` of extension.ts, with the process working directory `cwd`
for `path.resolve` and the optional workspace folder path made explicit. -/
def isPathSafe (cwd filePath : String) (workspacePath : Option String) : Bool :=
  let absolutePath := resolvePath cwd filePath
  (match workspacePath with
   | some wp => strHasPfx absolutePath wp && strEndsWith absolutePath ".rs"
   | none => false) ||
  (strIncludes absolutePath "/.rustup/" && strEndsWith absolutePath ".rs") ||
  (strIncludes absolutePath "/.cargo/registry/" && strEndsWith absolutePath ".rs")

/-! ## stripGrepPrefix (extension.ts lines 50-53)

The regex `^[^:]+\.rs[:|-]` with greedy backtracking: the longest `k ≥ 1`
such that the first `k` characters contain no `:`, followed by `.rs` and
one of `:`, `|`, `-`, determines the stripped prefix of length `k + 4`. -/

/-- Whether stripping at offset `k` is a valid match of `^[^:]+\.rs[:|-]`. -/
def validStripLen (cs : List Char) (k : Nat) : Bool :=
  1 ≤ k && (cs.take k).all (fun c => !(c = ':')) &&
  ((cs.drop k).take 3 = ['.', 'r', 's']) &&
  (match (cs.drop (k + 3)).head? with
   | some c => c = ':' || c = '|' || c = '-'
   | none => false)

/-- Greedy choice: the largest valid strip offset, if any. -/
def bestStripLen (cs : List Char) : Option Nat :=
  (List.range cs.length).reverse.find? (validStripLen cs)

/-- `stripGrepPrefix` of extension.ts. -/
def stripGrepPrefix (line : String) : String :=
  match bestStripLen line.data with
  | some k => ⟨line.data.drop (k + 4)⟩
  | none => line

/-! ## Search-scope selection (extension.ts lines 564, 602-607) -/

/-- JavaScript `p.substring(0, p.lastIndexOf('/'))`: the characters before
the last `/`, or `""` when there is none. -/
def dirOfPath (p : String) : String :=
  match p.data.reverse.dropWhile (fun c => !(c = '/')) with
  | [] => ""
  | _ :: before => ⟨before.reverse⟩

/-- The search-scope selection of `getStructMethods`:
`isExternalCrate = !defPath.includes(cwd)`; external crates are searched in
the declaration file's directory, local types in the workspace root. -/
def selectSearchPath (cwd defPath : String) : String :=
  let isExternalCrate := !(strIncludes defPath cwd)
  if isExternalCrate then dirOfPath defPath else cwd

/-- The spec's notion of a path lying under the workspace root:
the root is a path prefix of the declaration path. -/
def liesUnder (p root : String) : Bool := strHasPfx p root

/-! ## Shell metacharacters (spec §8 / claim C1) -/

/-- The input contains one of the shell metacharacters named by the spec:
`;`, backtick, the sequence `$(`, or a quote character. -/
def containsShellMeta (s : String) : Bool :=
  containsChar s ';' || containsChar s '`' || strIncludes s "$(" ||
  containsChar s charApos || containsChar s '"'

/-! ## Embedded regex matchers

A matcher takes the remaining input (a char-list suffix) and returns the
list of possible remaining suffixes after a match, in backtracking
priority order (greedy alternatives first), exactly as a JavaScript
regex engine explores them. -/

/-- Matcher: input suffix to candidate remainders in priority order. -/
def RxM := List Char → List (List Char)

/-- Match a literal string. -/
def mLit (lit : List Char) : RxM := fun s =>
  if hasPfxL s lit then [s.drop lit.length] else []

/-- Greedy `+` over a character class: longest run first, down to one char. -/
def mClassPlus (p : Char → Bool) : RxM := fun s =>
  let m := (s.takeWhile p).length
  (List.range m).map (fun d => s.drop (m - d))

/-- Greedy `*` over a character class: longest run first, down to zero chars. -/
def mClassStar (p : Char → Bool) : RxM := fun s =>
  let m := (s.takeWhile p).length
  (List.range (m + 1)).map (fun d => s.drop (m - d))

/-- Sequencing of matchers (depth-first backtracking order). -/
def mSeq (a b : RxM) : RxM := fun s => (a s).flatMap b

/-- Greedy `(?:...)?`: try the body first, then skip it. -/
def mOpt (a : RxM) : RxM := fun s => a s ++ [s]

/-- The `\w` class `[A-Za-z0-9_]`. -/
def isWordChar (c : Char) : Bool := c.isAlphanum || c = '_'

/-- The `[\w:]` class. -/
def isWordColon (c : Char) : Bool := isWordChar c || c = ':'

/-- The `[\w<>:]` class. -/
def isImplNameChar (c : Char) : Bool := isWordChar c || c = '<' || c = '>' || c = ':'

/-- JavaScript `.` (anything but a line terminator). -/
def isDotChar (c : Char) : Bool :=
  !(c = '\n' || c = '\r' || c.val = 0x2028 || c.val = 0x2029)

/-! ### The impl-header regex (extension.ts line 635)

`/^(impl(?:\s+<[^>]+>)?\s+(?:[\w:]+(?:\s+for\s+)?)?[\w<>:]+)\s*\{/` -/

/-- The capture-group part of the impl-header regex. -/
def implGroupM : RxM :=
  mSeq (mLit "impl".data)
    (mSeq (mOpt (mSeq (mClassPlus isJsWs)
                  (mSeq (mLit ['<'])
                    (mSeq (mClassPlus (fun c => !(c = '>'))) (mLit ['>'])))))
      (mSeq (mClassPlus isJsWs)
        (mSeq (mOpt (mSeq (mClassPlus isWordColon)
                      (mOpt (mSeq (mClassPlus isJsWs)
                              (mSeq (mLit "for".data) (mClassPlus isJsWs))))))
          (mClassPlus isImplNameChar))))

/-- Whether the tail `\s*\{` matches at the given suffix. -/
def implTailOk (s : List Char) : Bool :=
  !((mSeq (mClassStar isJsWs) (mLit [charLBrace])) s).isEmpty

/-- `line.match(implRegex)`: the captured group-1 text, if the anchored
impl-header regex matches. -/
def implHeadMatch (line : String) : Option String :=
  let cs := line.data
  ((implGroupM cs).find? implTailOk).map
    (fun rem => ⟨cs.take (cs.length - rem.length)⟩)

/-! ### The fn regex (extension.ts line 664)

`/(?:pub\s+)?(?:const\s+)?(?:async\s+)?(?:unsafe\s+)?fn\s+(.+)/`
(unanchored: JavaScript scans for the leftmost matching start). -/

/-- The qualifier-and-`fn` part of the fn regex, up to the capture group. -/
def fnGroupM : RxM :=
  mSeq (mOpt (mSeq (mLit "pub".data) (mClassPlus isJsWs)))
    (mSeq (mOpt (mSeq (mLit "const".data) (mClassPlus isJsWs)))
      (mSeq (mOpt (mSeq (mLit "async".data) (mClassPlus isJsWs)))
        (mSeq (mOpt (mSeq (mLit "unsafe".data) (mClassPlus isJsWs)))
          (mSeq (mLit "fn".data) (mClassPlus isJsWs)))))

/-- Try the fn regex anchored at the current position: the greedy `(.+)`
group takes the longest run of non-line-terminator characters. -/
def fnMatchHere (cs : List Char) : Option String :=
  (fnGroupM cs).findSome? (fun rem =>
    let g := rem.takeWhile isDotChar
    if g.isEmpty then none else some ⟨g⟩)

/-- Leftmost scan for the fn regex. -/
def fnMatchScan : List Char → Option String
  | [] => none
  | c :: rest =>
    match fnMatchHere (c :: rest) with
    | some g => some g
    | none => fnMatchScan rest

/-- `line.match(fnRegex)`: the captured group-1 text (the signature text
after `fn `), if the fn regex matches anywhere in the line. -/
def fnMatch (line : String) : Option String :=
  match line.data with
  | [] => none
  | c :: rest =>
    match fnMatchHere (c :: rest) with
    | some g => some g
    | none => fnMatchScan rest

/-! ### Declaration-window regexes (extension.ts lines 578-579)

`/(?:pub\s+)?struct\s+(\w+)/` and `/(?:pub\s+)?type\s+(\w+)\s*=\s*(\w+)/`,
both unanchored.  The character classes of consecutive regex pieces are
disjoint, so greedy matching needs no backtracking here. -/

/-- Consume an optional `pub` qualifier followed by whitespace. -/
def eatOptQual (lit : List Char) (cs : List Char) : List Char :=
  if hasPfxL cs lit then
    let rest := cs.drop lit.length
    let w := (rest.takeWhile isJsWs).length
    if w = 0 then cs else rest.drop w
  else cs

/-- Try `(?:pub\s+)?struct\s+(\w+)` anchored at the current position. -/
def structMatchHere (cs : List Char) : Option String :=
  let cs1 := eatOptQual "pub".data cs
  if hasPfxL cs1 "struct".data then
    let r1 := cs1.drop 6
    let w := (r1.takeWhile isJsWs).length
    if w = 0 then none
    else
      let r2 := r1.drop w
      let name := r2.takeWhile isWordChar
      if name.isEmpty then none else some ⟨name⟩
  else none

/-- Try `(?:pub\s+)?type\s+(\w+)\s*=\s*(\w+)` anchored at the current
position; returns (alias name, aliased concrete name). -/
def typeAliasMatchHere (cs : List Char) : Option (String × String) :=
  let cs1 := eatOptQual "pub".data cs
  if hasPfxL cs1 "type".data then
    let r1 := cs1.drop 4
    let w := (r1.takeWhile isJsWs).length
    if w = 0 then none
    else
      let r2 := r1.drop w
      let name1 := r2.takeWhile isWordChar
      if name1.isEmpty then none
      else
        let r3 := (r2.drop name1.length).dropWhile isJsWs
        match r3 with
        | '=' :: r4 =>
          let r5 := r4.dropWhile isJsWs
          let name2 := r5.takeWhile isWordChar
          if name2.isEmpty then none else some (⟨name1⟩, ⟨name2⟩)
        | _ => none
  else none

/-- Leftmost scan for the struct regex. -/
def structMatchScan : List Char → Option String
  | [] => none
  | c :: rest =>
    match structMatchHere (c :: rest) with
    | some g => some g
    | none => structMatchScan rest

/-- `line.match(structRegex)`: captured struct name. -/
def structMatch (line : String) : Option String :=
  match line.data with
  | [] => none
  | c :: rest =>
    match structMatchHere (c :: rest) with
    | some g => some g
    | none => structMatchScan rest

/-- Leftmost scan for the type-alias regex. -/
def typeAliasMatchScan : List Char → Option (String × String)
  | [] => none
  | c :: rest =>
    match typeAliasMatchHere (c :: rest) with
    | some g => some g
    | none => typeAliasMatchScan rest

/-- `line.match(typeAliasRegex)`: captured (alias, concrete) names. -/
def typeAliasMatch (line : String) : Option (String × String) :=
  match line.data with
  | [] => none
  | c :: rest =>
    match typeAliasMatchHere (c :: rest) with
    | some g => some g
    | none => typeAliasMatchScan rest

/-! ## Type resolver (extension.ts lines 574-591) -/

/-- Scan the declaration window for the first type-alias or struct
declaration; a type-alias match resolves to the aliased name, a struct
match to its own name. -/
def declMatchInWindow (lines : List String) : Nat → Nat → Option String
  | 0, _ => none
  | fuel + 1, i =>
    let line := lines.getD i ""
    match typeAliasMatch line with
    | some t => some t.2
    | none =>
      match structMatch line with
      | some s => some s
      | none => declMatchInWindow lines fuel (i + 1)

/-- The canonical struct-name resolution of `getStructMethods`: scan up to
10 lines from the definition location; fall back to the original symbol. -/
def resolveStructName (lines : List String) (startLine : Nat) (symbol : String) : String :=
  match declMatchInWindow lines (min (startLine + 10) lines.length - startLine) startLine with
  | some n => n
  | none => symbol

/-! ## Method records and impl blocks (extension.ts lines 417-428) -/

/-- The per-method record `{signature, doc, line}`. -/
structure MethodInfo where
  signature : String
  doc : String
  line : Nat
deriving Repr, DecidableEq

/-- The per-impl-block record `{header, comment?, methods}`. -/
structure ImplBlock where
  header : String
  comment : Option String
  methods : List MethodInfo
deriving Repr, DecidableEq

/-! ## Impl-block comment scan (extension.ts lines 643-655) -/

/-- Backward scan (up to 5 lines) for a doc comment before an impl header;
blank lines and `--` separators are skipped, anything else stops the scan.
An empty comment collapses to `none` (the `implComment || undefined` write). -/
def implCommentScan (lines : List String) : Nat → Nat → Option String
  | 0, _ => none
  | fuel + 1, j =>
    let t := jsTrim (stripGrepPrefix (lines.getD j ""))
    if strHasPfx t "///" then
      let c := jsTrim (strDrop t 3)
      if c = "" then none else some c
    else if t = "" ∨ t = "--" then implCommentScan lines fuel (j - 1)
    else none

/-- The comment attached to the impl block whose header is at line `i`. -/
def implCommentAt (lines : List String) (i : Nat) : Option String :=
  implCommentScan lines (min i 5) (i - 1)

/-! ## Doc extractor (extension.ts lines 696-741) -/

/-- The content filter on an individual doc line (extension.ts line 714). -/
def docLineKept (docLine : String) : Bool :=
  !(docLine = "") && !(strHasPfx docLine "```") && !(strHasPfx docLine "#") &&
  !(strHasPfx docLine "assert") && !(strHasPfx docLine "[") && !(strHasPfx docLine "*")

/-- Backward doc-comment scan from line `j` downward (`fuel` lines at most),
accumulating kept doc lines in top-to-bottom order (backward prepend). -/
def docScanAux (lines : List String) : Nat → Nat → List String → List String
  | 0, _, acc => acc
  | fuel + 1, j, acc =>
    let t := jsTrim (stripGrepPrefix (lines.getD j ""))
    if t = "--" ∨ t = "" then docScanAux lines fuel (j - 1) acc
    else if strHasPfx t "///" then
      let docLine := jsTrim (strDrop t 3)
      if docLineKept docLine then docScanAux lines fuel (j - 1) (docLine :: acc)
      else docScanAux lines fuel (j - 1) acc
    else if strHasPfx t "//!" ∨ strHasPfx t "//" then docScanAux lines fuel (j - 1) acc
    else if strHasPfx t "#[" then docScanAux lines fuel (j - 1) acc
    else if acc.isEmpty then docScanAux lines fuel (j - 1) acc
    else acc

/-- First-paragraph reduction (extension.ts lines 729-739): take lines until
a blank line or until `MIN_DOC_SENTENCES` lines have been taken. -/
def firstParaAux : Nat → List String → List String
  | _, [] => []
  | k, l :: ls =>
    if l = "" then []
    else if MIN_DOC_SENTENCES ≤ k + 1 then [l]
    else l :: firstParaAux (k + 1) ls

/-- First paragraph of the accumulated doc lines. -/
def firstPara (ds : List String) : List String := firstParaAux 0 ds

/-- The documentation string extracted for a method whose signature starts
at line `i` of the grep output. -/
def extractDoc (lines : List String) (i : Nat) : String :=
  let ds := docScanAux lines (min i MAX_DOC_LINES_TO_SCAN) (i - 1) []
  if ds.isEmpty then "" else String.intercalate " " (firstPara ds)

/-! ## Signature reconstruction (extension.ts lines 667-693) -/

/-- Continuation-line collection (extension.ts lines 671-684): append
trimmed following lines (skipping blanks and `--` separators) until a line
containing an opening brace, bounded by the remaining fuel. -/
def collectContAux (lines : List String) : Nat → Nat → String → String
  | 0, _, sig => sig
  | fuel + 1, k, sig =>
    let t := jsTrim (stripGrepPrefix (lines.getD k ""))
    if t = "--" ∨ t = "" then collectContAux lines fuel (k + 1) sig
    else if containsChar t charLBrace then sig ++ " " ++ t
    else collectContAux lines fuel (k + 1) (sig ++ " " ++ t)

/-- The full signature normalization pipeline for the fn match `raw` found
at line `i`: trim, collect continuation lines when the first line has no
brace and does not end in `)`, truncate at the first brace, tighten spaces
inside parentheses, collapse whitespace runs. -/
def buildSignature (lines : List String) (i : Nat) (raw : String) : String :=
  let sig0 := jsTrim raw
  let sig1 :=
    if !(containsChar sig0 charLBrace) && !(strEndsWith sig0 ")") then
      collectContAux lines (min lines.length (i + MAX_SIGNATURE_CONTINUATION_LINES) - (i + 1))
        (i + 1) sig0
    else sig0
  let sig2 := if containsChar sig1 charLBrace then jsTrim (truncAtBrace sig1) else sig1
  collapseWs (parenCloseFix (parenOpenFix sig2))

/-- The Method Record created at line `i` of the grep output, if the line
matches the fn regex and the normalized signature passes the construction
filter (non-empty, not starting with an underscore). -/
def methodAt (lines : List String) (i : Nat) : Option MethodInfo :=
  match fnMatch (stripGrepPrefix (lines.getD i "")) with
  | none => none
  | some raw =>
    let sig := buildSignature lines i raw
    if sig = "" then none
    else if strHasPfx sig "_" then none
    else some ⟨sig, extractDoc lines i, i⟩

/-! ## The main parse loop (extension.ts lines 626-757) -/

/-- The loop state: flat method list, closed impl blocks, the open block. -/
structure ParseState where
  methods : List MethodInfo
  implBlocks : List ImplBlock
  current : Option ImplBlock
deriving Repr, DecidableEq

/-- Processing of one grep output line: a matching impl header closes the
open block (kept only when non-empty) and opens a new one; a matching fn
line creates a Method Record, appended to the flat list and to the open
block. -/
def processLine (lines : List String) (i : Nat) (st : ParseState) : ParseState :=
  let line := stripGrepPrefix (lines.getD i "")
  let st1 :=
    match implHeadMatch line with
    | some hdr =>
      { methods := st.methods
        implBlocks :=
          match st.current with
          | some b => if b.methods.isEmpty then st.implBlocks else st.implBlocks ++ [b]
          | none => st.implBlocks
        current := some ⟨jsTrim hdr, implCommentAt lines i, []⟩ }
    | none => st
  match methodAt lines i with
  | some m =>
    { methods := st1.methods ++ [m]
      implBlocks := st1.implBlocks
      current := st1.current.map (fun b => ⟨b.header, b.comment, b.methods ++ [m]⟩) }
  | none => st1

/-- Fold the line processor over a list of line indices. -/
def runParse (lines : List String) (idxs : List Nat) (st : ParseState) : ParseState :=
  idxs.foldl (fun s i => processLine lines i s) st

/-- Closing of the last open impl block (extension.ts lines 753-755). -/
def finalizeBlocks (st : ParseState) : List ImplBlock :=
  match st.current with
  | some b => if b.methods.isEmpty then st.implBlocks else st.implBlocks ++ [b]
  | none => st.implBlocks

/-- The parse of the grep output of `getStructMethods`: the flat method
list and the final impl-block list. -/
def parseGrepOutput (lines : List String) : List MethodInfo × List ImplBlock :=
  let st := runParse lines (List.range lines.length) ⟨[], [], none⟩
  (st.methods, finalizeBlocks st)

/-! ## escapeHtml (extension.ts lines 946-953) -/

/-- JavaScript `replace(/c/g, r)` for a single-character pattern. -/
def replaceCharStr (s : String) (c : Char) (r : String) : String :=
  ⟨s.data.flatMap (fun x => if x = c then r.data else [x])⟩

/-- `escapeHtml` of extension.ts: the five sequential global replacements. -/
def escapeHtml (text : String) : String :=
  replaceCharStr
    (replaceCharStr
      (replaceCharStr
        (replaceCharStr
          (replaceCharStr text '&' "&amp;")
          '<' "&lt;")
        '>' "&gt;")
      '"' "&quot;")
    charApos "&#039;"

/-! ## Specification-side grouping (for the grouping claim)

`groupedBlocks` follows the spec's words: the impl-header lines split the
output into intervals; every retained Method Record between header `A` and
the next header `B` belongs to the block opened at `A`; blocks with no
methods are dropped. -/

/-- Whether line `i` (stripped) is an impl-header line. -/
def headerAt (lines : List String) (i : Nat) : Bool :=
  (implHeadMatch (stripGrepPrefix (lines.getD i ""))).isSome

/-- The impl-header line indices below `n`, in order. -/
def headerIdxsUpTo (lines : List String) (n : Nat) : List Nat :=
  (List.range n).filter (headerAt lines)

/-- The normalized header text of the impl-header line `i`. -/
def headerStrAt (lines : List String) (i : Nat) : String :=
  jsTrim ((implHeadMatch (stripGrepPrefix (lines.getD i ""))).getD "")

/-- The block opened by the header at line `a`, holding every Method Record
created at a line of the interval `[a, b)`. -/
def blockFor (lines : List String) (a b : Nat) : ImplBlock :=
  ⟨headerStrAt lines a, implCommentAt lines a,
   (List.range' a (b - a)).filterMap (methodAt lines)⟩

/-- Consecutive pairs of a list. -/
def consecPairs : List Nat → List (Nat × Nat)
  | [] => []
  | [_] => []
  | a :: b :: rest => (a, b) :: consecPairs (b :: rest)

/-- The flat method list over the first `n` lines. -/
def flatMethodsUpTo (lines : List String) (n : Nat) : List MethodInfo :=
  (List.range n).filterMap (methodAt lines)

/-- The closed blocks after the first `n` lines: one block per pair of
consecutive headers, empty blocks dropped. -/
def completedBlocksUpTo (lines : List String) (n : Nat) : List ImplBlock :=
  ((consecPairs (headerIdxsUpTo lines n)).map (fun p => blockFor lines p.1 p.2)).filter
    (fun b => !b.methods.isEmpty)

/-- The open block after the first `n` lines: from the last header seen. -/
def currentBlockAt (lines : List String) (n : Nat) : Option ImplBlock :=
  ((headerIdxsUpTo lines n).getLast?).map (fun a => blockFor lines a n)

/-- The specification state after the first `n` lines. -/
def specStateAt (lines : List String) (n : Nat) : ParseState :=
  ⟨flatMethodsUpTo lines n, completedBlocksUpTo lines n, currentBlockAt lines n⟩

/-- The spec-side grouping of the whole output: intervals run from each
header to the next header (the last one to the end of the output). -/
def groupedBlocks (lines : List String) : List ImplBlock :=
  ((consecPairs (headerIdxsUpTo lines lines.length ++ [lines.length])).map
    (fun p => blockFor lines p.1 p.2)).filter (fun b => !b.methods.isEmpty)

/-! ## The parse loop computes the spec-side grouping -/

theorem consecPairs_concat (xs : List Nat) (b : Nat) :
    consecPairs (xs ++ [b]) =
      consecPairs xs ++ (match xs.getLast? with | some a => [(a, b)] | none => []) := by
  induction xs with
  | nil => simp [consecPairs]
  | cons x rest ih =>
    cases rest with
    | nil => simp [consecPairs]
    | cons y rest' =>
      simp only [List.cons_append] at ih ⊢
      rw [consecPairs, ih, List.getLast?_cons_cons, consecPairs, List.cons_append]

theorem mem_headerIdxsUpTo_lt {lines : List String} {n a : Nat}
    (h : a ∈ headerIdxsUpTo lines n) : a < n := by
  have := List.mem_filter.mp h
  simpa using List.mem_range.mp this.1

theorem headerIdxsUpTo_succ (lines : List String) (n : Nat) :
    headerIdxsUpTo lines (n + 1) =
      headerIdxsUpTo lines n ++ (if headerAt lines n then [n] else []) := by
  simp only [headerIdxsUpTo, List.range_succ, List.filter_append, List.filter_cons,
    List.filter_nil]

theorem flatMethodsUpTo_succ (lines : List String) (n : Nat) :
    flatMethodsUpTo lines (n + 1) =
      flatMethodsUpTo lines n ++ (methodAt lines n).toList := by
  simp only [flatMethodsUpTo, List.range_succ, List.filterMap_append, List.filterMap_cons,
    List.filterMap_nil]
  cases methodAt lines n <;> rfl

theorem blockFor_succ {a n : Nat} (lines : List String) (h : a ≤ n) :
    blockFor lines a (n + 1) =
      ⟨headerStrAt lines a, implCommentAt lines a,
       (blockFor lines a n).methods ++ (methodAt lines n).toList⟩ := by
  have hr : List.range' a (n + 1 - a) = List.range' a (n - a) ++ [n] := by
    have h1 : n + 1 - a = (n - a) + 1 := by omega
    rw [h1, List.range'_concat]
    congr 1
    simp
    omega
  simp only [blockFor, hr, List.filterMap_append, List.filterMap_cons, List.filterMap_nil]
  cases methodAt lines n <;> rfl


theorem blockFor_succ_map {a n : Nat} (lines : List String) (h : a < n) :
    blockFor lines a (n + 1) =
      (fun b : ImplBlock =>
        (⟨b.header, b.comment, b.methods ++ (methodAt lines n).toList⟩ : ImplBlock))
        (blockFor lines a n) := by
  rw [blockFor_succ lines (Nat.le_of_lt h)]
  exact rfl

theorem processLine_spec (lines : List String) (n : Nat) :
    processLine lines n (specStateAt lines n) = specStateAt lines (n + 1) := by
  have hflat := flatMethodsUpTo_succ lines n
  have hidx := headerIdxsUpTo_succ lines n
  cases hH : implHeadMatch (stripGrepPrefix (lines.getD n "")) with
  | none =>
    have hhead : headerAt lines n = false := by
      unfold headerAt
      rw [hH]
      rfl
    have hidx2 : headerIdxsUpTo lines (n + 1) = headerIdxsUpTo lines n := by
      rw [hidx, hhead]
      simp
    have hcomp : completedBlocksUpTo lines (n + 1) = completedBlocksUpTo lines n := by
      unfold completedBlocksUpTo
      rw [hidx2]
    have hcur : currentBlockAt lines (n + 1) =
        (currentBlockAt lines n).map
          (fun b => ⟨b.header, b.comment, b.methods ++ (methodAt lines n).toList⟩) := by
      unfold currentBlockAt
      rw [hidx2]
      cases hL : (headerIdxsUpTo lines n).getLast? with
      | none => rfl
      | some a =>
        have ha : a < n := mem_headerIdxsUpTo_lt (List.mem_of_mem_getLast? hL)
        simp [blockFor_succ_map lines ha]
    cases hM : methodAt lines n with
    | none =>
      have h1 : flatMethodsUpTo lines (n + 1) = flatMethodsUpTo lines n := by
        rw [hflat, hM]
        simp
      have h2 : currentBlockAt lines (n + 1) = currentBlockAt lines n := by
        rw [hcur, hM]
        cases currentBlockAt lines n with
        | none => rfl
        | some b => simp
      simp only [processLine, hH, hM, specStateAt, h1, h2, hcomp]
    | some m =>
      have h1 : flatMethodsUpTo lines (n + 1) = flatMethodsUpTo lines n ++ [m] := by
        rw [hflat, hM]
        rfl
      have h2 : currentBlockAt lines (n + 1) =
          (currentBlockAt lines n).map
            (fun b => ⟨b.header, b.comment, b.methods ++ [m]⟩) := by
        rw [hcur, hM]
        simp
      simp only [processLine, hH, hM, specStateAt, h1, h2, hcomp]
  | some hdr =>
    have hhead : headerAt lines n = true := by
      unfold headerAt
      rw [hH]
      rfl
    have hidx2 : headerIdxsUpTo lines (n + 1) = headerIdxsUpTo lines n ++ [n] := by
      rw [hidx, hhead]
      simp
    have hbfn : blockFor lines n (n + 1) =
        ⟨jsTrim hdr, implCommentAt lines n, (methodAt lines n).toList⟩ := by
      unfold blockFor headerStrAt
      rw [hH]
      have hr1 : n + 1 - n = 1 := by omega
      rw [hr1]
      have hr2 : List.range' n 1 = [n] := rfl
      rw [hr2]
      simp only [List.filterMap_cons, List.filterMap_nil, Option.getD_some]
      cases methodAt lines n <;> rfl
    have hcur1 : currentBlockAt lines (n + 1) = some (blockFor lines n (n + 1)) := by
      unfold currentBlockAt
      rw [hidx2, List.getLast?_concat]
      rfl
    have hcomp : completedBlocksUpTo lines (n + 1) =
        completedBlocksUpTo lines n ++
          (match (headerIdxsUpTo lines n).getLast? with
           | some a =>
             if (blockFor lines a n).methods.isEmpty then [] else [blockFor lines a n]
           | none => []) := by
      unfold completedBlocksUpTo
      rw [hidx2, consecPairs_concat]
      cases hL : (headerIdxsUpTo lines n).getLast? with
      | none => simp
      | some a =>
        simp only [List.map_append, List.filter_append, List.map_cons, List.map_nil,
          List.filter_cons, List.filter_nil]
        cases hE : (blockFor lines a n).methods.isEmpty <;> simp [hE]
    simp only [processLine, hH, specStateAt, hcomp, hcur1, hbfn, hflat]
    cases hM : methodAt lines n with
    | none =>
      cases hL : (headerIdxsUpTo lines n).getLast? with
      | none =>
        simp [currentBlockAt, hL]
      | some a =>
        simp only [currentBlockAt, hL]
        cases hE : (blockFor lines a n).methods.isEmpty <;> simp [hE]
    | some m =>
      cases hL : (headerIdxsUpTo lines n).getLast? with
      | none =>
        simp [currentBlockAt, hL]
      | some a =>
        simp only [currentBlockAt, hL]
        cases hE : (blockFor lines a n).methods.isEmpty <;> simp [hE]

theorem runParse_spec (lines : List String) (n : Nat) :
    runParse lines (List.range n) ⟨[], [], none⟩ = specStateAt lines n := by
  induction n with
  | zero => rfl
  | succ k ih =>
    unfold runParse at ih ⊢
    rw [List.range_succ, List.foldl_append, ih]
    exact processLine_spec lines k

theorem parseGrep_methods_eq (lines : List String) :
    (parseGrepOutput lines).1 = flatMethodsUpTo lines lines.length := by
  unfold parseGrepOutput
  rw [runParse_spec]
  rfl

theorem groupedBlocks_split (lines : List String) :
    groupedBlocks lines =
      completedBlocksUpTo lines lines.length ++
        (match (headerIdxsUpTo lines lines.length).getLast? with
         | some a =>
           if (blockFor lines a lines.length).methods.isEmpty then []
           else [blockFor lines a lines.length]
         | none => []) := by
  unfold groupedBlocks completedBlocksUpTo
  rw [consecPairs_concat]
  cases hL : (headerIdxsUpTo lines lines.length).getLast? with
  | none => simp
  | some a =>
    simp only [List.map_append, List.filter_append, List.map_cons, List.map_nil,
      List.filter_cons, List.filter_nil]
    cases hE : (blockFor lines a lines.length).methods.isEmpty <;> simp [hE]

theorem parseGrep_blocks_eq (lines : List String) :
    (parseGrepOutput lines).2 = groupedBlocks lines := by
  unfold parseGrepOutput
  rw [runParse_spec, groupedBlocks_split]
  unfold finalizeBlocks specStateAt currentBlockAt
  cases hL : (headerIdxsUpTo lines lines.length).getLast? with
  | none => simp
  | some a =>
    simp only [Option.map_some]
    cases hE : (blockFor lines a lines.length).methods.isEmpty <;> simp [hE]

theorem groupedBlocks_all_nonempty (lines : List String) :
    (groupedBlocks lines).all (fun b => !b.methods.isEmpty) = true := by
  rw [List.all_eq_true]
  intro b hb
  exact (List.mem_filter.mp hb).2

/-! ## Invariants of the signature-normalization pipeline -/

theorem mem_trimL {c : Char} {l : List Char} (h : c ∈ trimL l) : c ∈ l := by
  unfold trimL at h
  rw [List.mem_reverse] at h
  have h2 := (List.dropWhile_sublist _).subset h
  rw [List.mem_reverse] at h2
  exact (List.dropWhile_sublist _).subset h2

theorem mem_collapseWsL {c : Char} : ∀ {l : List Char}, c ∈ collapseWsL l → c ∈ l ∨ c = ' ' := by
  intro l
  induction l with
  | nil => intro h; simp [collapseWsL] at h
  | cons a t ih =>
    intro h
    cases t with
    | nil =>
      simp only [collapseWsL] at h
      by_cases hw : isJsWs a = true
      · rw [if_pos hw] at h
        right
        simpa using h
      · rw [if_neg hw] at h
        left
        simpa using h
    | cons b cs =>
      simp only [collapseWsL] at h
      by_cases hw : (isJsWs a && isJsWs b) = true
      · rw [if_pos hw] at h
        rcases ih h with h2 | h2
        · exact Or.inl (List.mem_cons_of_mem a h2)
        · exact Or.inr h2
      · rw [if_neg hw] at h
        rcases List.mem_cons.mp h with h2 | h2
        · by_cases hwa : isJsWs a = true
          · rw [h2, if_pos hwa]
            exact Or.inr rfl
          · rw [h2, if_neg hwa]
            exact Or.inl (List.mem_cons_self _ _)
        · rcases ih h2 with h3 | h3
          · exact Or.inl (List.mem_cons_of_mem a h3)
          · exact Or.inr h3

theorem collapseWsL_cons_head {b : Char} (hb : isJsWs b = false) (cs : List Char) :
    ∃ R, collapseWsL (b :: cs) = b :: R := by
  cases cs with
  | nil => exact ⟨[], by simp [collapseWsL, hb]⟩
  | cons d ds =>
    refine ⟨collapseWsL (d :: ds), ?_⟩
    simp [collapseWsL, hb]

theorem noTwoWsL_collapseWsL : ∀ (l : List Char), noTwoWsL (collapseWsL l) = true := by
  intro l
  induction l with
  | nil => rfl
  | cons a t ih =>
    cases t with
    | nil =>
      simp only [collapseWsL]
      by_cases hw : isJsWs a = true
      · rw [if_pos hw]; rfl
      · rw [if_neg hw]; rfl
    | cons b cs =>
      simp only [collapseWsL]
      by_cases hw : (isJsWs a && isJsWs b) = true
      · rw [if_pos hw]
        exact ih
      · rw [if_neg hw]
        by_cases hwa : isJsWs a = true
        · have hwb : isJsWs b = false := by
            cases hwb2 : isJsWs b
            · rfl
            · exact absurd (by rw [hwa, hwb2]; rfl) hw
          rw [if_pos hwa]
          rcases collapseWsL_cons_head hwb cs with ⟨R, hR⟩
          rw [hR]
          rw [hR] at ih
          simp [noTwoWsL, hwb, ih]
        · rw [if_neg hwa]
          cases hcc : collapseWsL (b :: cs) with
          | nil => rfl
          | cons r R =>
            rw [hcc] at ih
            simp only [noTwoWsL, hwa]
            rw [ih]
            simp

theorem mem_parenOpenFixAux {c : Char} :
    ∀ (l : List Char) (b : Bool), c ∈ parenOpenFixAux b l → c ∈ l := by
  intro l
  induction l with
  | nil => intro b h; simp [parenOpenFixAux] at h
  | cons x cs ih =>
    intro b h
    simp only [parenOpenFixAux] at h
    split at h
    · exact List.mem_cons_of_mem x (ih true h)
    · split at h
      · rename_i hcond
        have hx : x = '(' := by
          have := (Bool.and_eq_true _ _).mp hcond
          exact of_decide_eq_true this.1
        rcases List.mem_cons.mp h with h2 | h2
        · rw [h2, hx]
          exact List.mem_cons_self _ _
        · exact List.mem_cons_of_mem x (ih true h2)
      · rcases List.mem_cons.mp h with h2 | h2
        · rw [h2]
          exact List.mem_cons_self _ _
        · exact List.mem_cons_of_mem x (ih false h2)

theorem mem_parenCloseFixAux {c : Char} :
    ∀ (l pend : List Char), c ∈ parenCloseFixAux pend l → c ∈ pend ∨ c ∈ l := by
  intro l
  induction l with
  | nil =>
    intro pend h
    simp only [parenCloseFixAux] at h
    exact Or.inl (List.mem_reverse.mp h)
  | cons x cs ih =>
    intro pend h
    simp only [parenCloseFixAux] at h
    split at h
    · rcases ih (x :: pend) h with h2 | h2
      · rcases List.mem_cons.mp h2 with h3 | h3
        · exact Or.inr (h3 ▸ List.mem_cons_self _ _)
        · exact Or.inl h3
      · exact Or.inr (List.mem_cons_of_mem x h2)
    · split at h
      · rename_i hcond
        have hx : x = ')' := by
          have := (Bool.and_eq_true _ _).mp hcond
          exact of_decide_eq_true this.1
        rcases List.mem_cons.mp h with h2 | h2
        · rw [h2, hx]
          exact Or.inr (List.mem_cons_self _ _)
        · rcases ih [] h2 with h3 | h3
          · simp at h3
          · exact Or.inr (List.mem_cons_of_mem x h3)
      · rcases List.mem_append.mp h with h2 | h2
        · exact Or.inl (List.mem_reverse.mp h2)
        · rcases List.mem_cons.mp h2 with h3 | h3
          · exact Or.inr (h3 ▸ List.mem_cons_self _ _)
          · rcases ih [] h3 with h4 | h4
            · simp at h4
            · exact Or.inr (List.mem_cons_of_mem x h4)

theorem not_mem_of_containsChar_false {s : String} {c : Char}
    (h : containsChar s c = false) : ∀ x ∈ s.data, x ≠ c := by
  intro x hx hxc
  have h2 : containsChar s c = true := by
    unfold containsChar
    rw [List.any_eq_true]
    exact ⟨x, hx, by simp [hxc]⟩
  rw [h] at h2
  cases h2

theorem containsChar_false_of {s : String} {c : Char}
    (h : ∀ x ∈ s.data, x ≠ c) : containsChar s c = false := by
  cases hA : containsChar s c with
  | false => rfl
  | true =>
    unfold containsChar at hA
    rw [List.any_eq_true] at hA
    rcases hA with ⟨x, hx, hxc⟩
    exact absurd (of_decide_eq_true hxc) (h x hx)

theorem truncAtBrace_no_brace (s : String) :
    ∀ x ∈ (truncAtBrace s).data, x ≠ charLBrace := by
  intro x hx hxc
  have h2 := List.mem_takeWhile_imp hx
  rw [hxc] at h2
  simp at h2

theorem sig2_no_brace (sig1 : String) :
    containsChar
      (if containsChar sig1 charLBrace then jsTrim (truncAtBrace sig1) else sig1)
      charLBrace = false := by
  by_cases h : containsChar sig1 charLBrace = true
  · rw [if_pos h]
    apply containsChar_false_of
    intro x hx
    exact truncAtBrace_no_brace _ x (mem_trimL hx)
  · rw [if_neg (by simpa using h)]
    simpa using h

theorem normalize_no_brace (s : String) (hs : containsChar s charLBrace = false) :
    containsChar (collapseWs (parenCloseFix (parenOpenFix s))) charLBrace = false := by
  apply containsChar_false_of
  intro x hx hxc
  rw [hxc] at hx
  rcases mem_collapseWsL hx with h1 | h1
  · rcases mem_parenCloseFixAux _ _ h1 with h2 | h2
    · simp at h2
    · exact (not_mem_of_containsChar_false hs _ (mem_parenOpenFixAux _ _ h2)) rfl
  · simp [charLBrace] at h1

theorem buildSignature_no_brace (lines : List String) (i : Nat) (raw : String) :
    containsChar (buildSignature lines i raw) charLBrace = false := by
  unfold buildSignature
  exact normalize_no_brace _ (sig2_no_brace _)

theorem buildSignature_noTwoWs (lines : List String) (i : Nat) (raw : String) :
    noTwoWs (buildSignature lines i raw) = true := by
  unfold buildSignature
  exact noTwoWsL_collapseWsL _

theorem methodAt_props {lines : List String} {i : Nat} {m : MethodInfo}
    (h : methodAt lines i = some m) :
    m.signature ≠ "" ∧ strHasPfx m.signature "_" = false ∧
      containsChar m.signature charLBrace = false ∧ noTwoWs m.signature = true := by
  unfold methodAt at h
  split at h
  · cases h
  · rename_i raw hF
    dsimp only at h
    split at h
    · cases h
    · split at h
      · cases h
      · rename_i h1 h2
        injection h with h3
        rw [← h3]
        refine ⟨h1, ?_, buildSignature_no_brace lines i raw,
          buildSignature_noTwoWs lines i raw⟩
        simpa using h2

theorem mem_flatMethods {lines : List String} {m : MethodInfo}
    (h : m ∈ (parseGrepOutput lines).1) : ∃ i, methodAt lines i = some m := by
  rw [parseGrep_methods_eq] at h
  unfold flatMethodsUpTo at h
  rcases List.mem_filterMap.mp h with ⟨i, _, hi⟩
  exact ⟨i, hi⟩

theorem mem_blockMethods {lines : List String} {b : ImplBlock} {m : MethodInfo}
    (hb : b ∈ (parseGrepOutput lines).2) (hm : m ∈ b.methods) :
    ∃ i, methodAt lines i = some m := by
  rw [parseGrep_blocks_eq] at hb
  unfold groupedBlocks at hb
  have hb1 := (List.mem_filter.mp hb).1
  rcases List.mem_map.mp hb1 with ⟨p, _, hp⟩
  rw [← hp] at hm
  simp only [blockFor] at hm
  rcases List.mem_filterMap.mp hm with ⟨i, _, hi⟩
  exact ⟨i, hi⟩

/-! ## String-combinator helper lemmas -/

theorem hasPfxL_mem : ∀ {s pat : List Char}, hasPfxL s pat = true → ∀ c ∈ pat, c ∈ s := by
  intro s
  induction s with
  | nil =>
    intro pat h c hc
    cases pat with
    | nil => cases hc
    | cons p ps => cases h
  | cons a as ih =>
    intro pat h c hc
    cases pat with
    | nil => cases hc
    | cons p ps =>
      simp only [hasPfxL, Bool.and_eq_true] at h
      rcases List.mem_cons.mp hc with h2 | h2
      · rw [h2, ← of_decide_eq_true h.1]
        exact List.mem_cons_self _ _
      · exact List.mem_cons_of_mem a (ih h.2 c h2)

theorem hasSubL_mem : ∀ {s pat : List Char}, hasSubL s pat = true → ∀ c ∈ pat, c ∈ s := by
  intro s
  induction s with
  | nil =>
    intro pat h c hc
    cases pat with
    | nil => cases hc
    | cons p ps => simp [hasSubL, List.isEmpty] at h
  | cons a as ih =>
    intro pat h c hc
    simp only [hasSubL, Bool.or_eq_true] at h
    rcases h with h | h
    · exact hasPfxL_mem h c hc
    · exact List.mem_cons_of_mem a (ih h c hc)

theorem hasSubL_of_hasPfxL {s pat : List Char} (h : hasPfxL s pat = true) :
    hasSubL s pat = true := by
  cases s with
  | nil =>
    cases pat with
    | nil => rfl
    | cons p ps => cases h
  | cons a as => simp [hasSubL, h]

theorem hasPfxL_two {l : List Char} {a b : Char}
    (h : hasPfxL l [a, b] = true) : ∃ u, l = a :: b :: u := by
  cases l with
  | nil => cases h
  | cons x xs =>
    cases xs with
    | nil => simp [hasPfxL] at h
    | cons y ys =>
      simp only [hasPfxL, Bool.and_eq_true] at h
      exact ⟨ys, by
        rw [of_decide_eq_true h.1, of_decide_eq_true h.2.1]⟩

theorem containsChar_of_endsWith {s pat : String} {c : Char}
    (h : strEndsWith s pat = true) (hc : c ∈ pat.data) : containsChar s c = true := by
  unfold strEndsWith at h
  have h2 := hasPfxL_mem h c (List.mem_reverse.mpr hc)
  rw [List.mem_reverse] at h2
  unfold containsChar
  rw [List.any_eq_true]
  exact ⟨c, h2, by simp⟩

theorem containsChar_append (x y : String) (c : Char) :
    containsChar (x ++ y) c = (containsChar x c || containsChar y c) := by
  unfold containsChar
  rw [String.data_append, List.any_append]

theorem firstParaAux_length :
    ∀ (ls : List String) (k : Nat), k < MIN_DOC_SENTENCES →
      (firstParaAux k ls).length ≤ MIN_DOC_SENTENCES - k := by
  intro ls
  induction ls with
  | nil =>
    intro k hk
    simp [firstParaAux]
  | cons l t ih =>
    intro k hk
    simp only [firstParaAux]
    split
    · simp
    · split
      · rename_i h2
        simp only [List.length_cons, List.length_nil]
        omega
      · rename_i h2 h3
        have h4 := ih (k + 1) (by omega)
        simp only [List.length_cons]
        omega

theorem mem_replaceCharStr {s : String} {c : Char} {r : String} {x : Char}
    (h : x ∈ (replaceCharStr s c r).data) : x ∈ r.data ∨ (x ∈ s.data ∧ x ≠ c) := by
  unfold replaceCharStr at h
  rcases List.mem_flatMap.mp h with ⟨y, hy, hx⟩
  by_cases hyc : y = c
  · rw [if_pos hyc] at hx
    exact Or.inl hx
  · rw [if_neg hyc] at hx
    have hxy : x = y := by simpa using hx
    exact Or.inr ⟨hxy ▸ hy, hxy ▸ hyc⟩

/-! ## Claims -/

/-- C1 (counterexample to the original claim): the path
`/.rustup/a;b.rs` contains the shell metacharacter `;`, yet `isPathSafe`
accepts it (it checks only the location prefix and the `.rs` extension),
so the claim that both validators reject every metacharacter-bearing
input is false. -/
theorem c1_path_validator_counterexample :
    containsShellMeta "/.rustup/a;b.rs" = true ∧
      isPathSafe "/" "/.rustup/a;b.rs" none = true := by
  exact ⟨by decide, by decide⟩

/-- C1 (amended): for every input string containing a shell metacharacter
(`;`, a backtick, the sequence `$(`, or a quote character), the identifier
validator `isValidRustIdentifier` returns false.  (The path validator
`isPathSafe` does not share this property; see the counterexample.) -/
theorem c1_shell_meta_rejected (s : String)
    (h : containsShellMeta s = true) : isValidRustIdentifier s = false := by
  have hbad : ∃ c0 ∈ s.data, isIdentStart c0 = false ∧ isIdentRest c0 = false := by
    simp only [containsShellMeta, Bool.or_eq_true] at h
    rcases h with ((((h | h) | h) | h) | h)
    · unfold containsChar at h
      rw [List.any_eq_true] at h
      rcases h with ⟨c0, hm, hc⟩
      have hc2 := of_decide_eq_true hc
      exact ⟨c0, hm, by rw [hc2]; decide, by rw [hc2]; decide⟩
    · unfold containsChar at h
      rw [List.any_eq_true] at h
      rcases h with ⟨c0, hm, hc⟩
      have hc2 := of_decide_eq_true hc
      exact ⟨c0, hm, by rw [hc2]; decide, by rw [hc2]; decide⟩
    · unfold strIncludes at h
      have hm := hasSubL_mem h '$' (by decide)
      exact ⟨'$', hm, by decide, by decide⟩
    · unfold containsChar at h
      rw [List.any_eq_true] at h
      rcases h with ⟨c0, hm, hc⟩
      have hc2 := of_decide_eq_true hc
      exact ⟨c0, hm, by rw [hc2]; decide, by rw [hc2]; decide⟩
    · unfold containsChar at h
      rw [List.any_eq_true] at h
      rcases h with ⟨c0, hm, hc⟩
      have hc2 := of_decide_eq_true hc
      exact ⟨c0, hm, by rw [hc2]; decide, by rw [hc2]; decide⟩
  rcases hbad with ⟨c0, hmem, hstart, hrest⟩
  cases hd : s.data with
  | nil =>
    rw [hd] at hmem
    cases hmem
  | cons c cs =>
    rw [hd] at hmem
    simp only [isValidRustIdentifier, hd]
    rcases List.mem_cons.mp hmem with h2 | h2
    · rw [h2] at hstart
      simp [hstart]
    · cases hall : cs.all isIdentRest with
      | false => simp [hall]
      | true =>
        have := List.all_eq_true.mp hall c0 h2
        rw [hrest] at this
        cases this

/-- Witness for the amended C1 at a concrete input. -/
theorem c1_shell_meta_rejected_witness :
    containsShellMeta "a;b" = true ∧ isValidRustIdentifier "a;b" = false :=
  ⟨by decide, c1_shell_meta_rejected "a;b" (by decide)⟩

/-- C2 (counterexample to the original claim): the declaration path
`/tmp/w/x.rs` does not lie under the workspace root `/w` (it does not
start with it), yet `getStructMethods` selects the workspace root as the
search path (because `defPath.includes(cwd)` is a substring test), not the
declaration file's directory `/tmp/w`. -/
theorem c2_scope_counterexample :
    liesUnder "/tmp/w/x.rs" "/w" = false ∧
      selectSearchPath "/w" "/tmp/w/x.rs" = "/w" ∧
      dirOfPath "/tmp/w/x.rs" = "/tmp/w" ∧
      selectSearchPath "/w" "/tmp/w/x.rs" ≠ dirOfPath "/tmp/w/x.rs" := by
  exact ⟨by decide, by decide, by decide, by decide⟩

/-- C2 (amended): the search path is the workspace root whenever the
declaration path lies under (is prefixed by) the workspace root, and the
search path is the declaration file's directory exactly when the
declaration path does not contain the workspace root as a substring. -/
theorem c2_scope_selection (defPath cwd : String) :
    (liesUnder defPath cwd = true → selectSearchPath cwd defPath = cwd) ∧
    (strIncludes defPath cwd = false →
      selectSearchPath cwd defPath = dirOfPath defPath) := by
  constructor
  · intro h
    have h2 : strIncludes defPath cwd = true :=
      hasSubL_of_hasPfxL h
    simp [selectSearchPath, h2]
  · intro h
    simp [selectSearchPath, h]

/-- Witness for the amended C2 at concrete inputs. -/
theorem c2_scope_selection_witness :
    selectSearchPath "/w" "/w/src/a.rs" = "/w" ∧
      selectSearchPath "/w" "/ext/lib.rs" = dirOfPath "/ext/lib.rs" :=
  ⟨(c2_scope_selection "/w/src/a.rs" "/w").1 (by decide),
   (c2_scope_selection "/ext/lib.rs" "/w").2 (by decide)⟩

/-- C8: given a declaration window whose first matching line is
`type Foo = Bar<Baz>` and the symbol `Foo`, the resolved canonical type
name is `Bar` (the alias is followed one hop, not echoed back). -/
theorem c8_alias_resolution :
    resolveStructName ["// declaration site", "type Foo = Bar<Baz>"] 0 "Foo" = "Bar" ∧
      typeAliasMatch "type Foo = Bar<Baz>" = some ("Foo", "Bar") := by
  exact ⟨by decide, by decide⟩

/-- A character that is not an HTML delimiter. -/
def htmlSafeChar (c : Char) : Bool :=
  !(c = '<') && !(c = '>') && !(c = '"') && !(c = charApos)

/-- C10: for every input string, the output of `escapeHtml` contains none
of the characters `<`, `>`, `"`, or the apostrophe. -/
theorem c10_escapeHtml_safe (s : String) :
    ((escapeHtml s).data.all htmlSafeChar) = true := by
  rw [List.all_eq_true]
  intro c hc
  have hamp : ∀ y ∈ ("&amp;" : String).data, htmlSafeChar y = true := by decide
  have hlt : ∀ y ∈ ("&lt;" : String).data, htmlSafeChar y = true := by decide
  have hgt : ∀ y ∈ ("&gt;" : String).data, htmlSafeChar y = true := by decide
  have hquot : ∀ y ∈ ("&quot;" : String).data, htmlSafeChar y = true := by decide
  have hapos : ∀ y ∈ ("&#039;" : String).data, htmlSafeChar y = true := by decide
  unfold escapeHtml at hc
  rcases mem_replaceCharStr hc with h5 | ⟨h5, hne5⟩
  · exact hapos c h5
  rcases mem_replaceCharStr h5 with h4 | ⟨h4, hne4⟩
  · exact hquot c h4
  rcases mem_replaceCharStr h4 with h3 | ⟨h3, hne3⟩
  · exact hgt c h3
  rcases mem_replaceCharStr h3 with h2 | ⟨h2, hne2⟩
  · exact hlt c h2
  rcases mem_replaceCharStr h2 with h1 | ⟨h1, hne1⟩
  · exact hamp c h1
  simp [htmlSafeChar, hne2, hne3, hne4, hne5]

/-- A string starting with `//` is neither empty nor the `--` separator. -/
theorem comment_shape {t : String} (h : strHasPfx t "//" = true) :
    t ≠ "" ∧ t ≠ "--" := by
  unfold strHasPfx at h
  rcases hasPfxL_two h with ⟨u, hu⟩
  constructor
  · intro he
    rw [he] at hu
    cases hu
  · intro he
    rw [he] at hu
    cases hu

/-- A string starting with `#[` is neither empty nor `--`, and starts with
none of the comment markers. -/
theorem attr_shape {t : String} (h : strHasPfx t "#[" = true) :
    t ≠ "" ∧ t ≠ "--" ∧ strHasPfx t "///" = false ∧ strHasPfx t "//!" = false ∧
      strHasPfx t "//" = false := by
  unfold strHasPfx at h
  rcases hasPfxL_two h with ⟨u, hu⟩
  refine ⟨?_, ?_, ?_, ?_, ?_⟩
  · intro he
    rw [he] at hu
    cases hu
  · intro he
    rw [he] at hu
    cases hu
  · unfold strHasPfx
    rw [hu]
    rfl
  · unfold strHasPfx
    rw [hu]
    rfl
  · unfold strHasPfx
    rw [hu]
    rfl

/-- `///` is a prefix whenever a string starts with `///`; conversely a
string starting with `//` but not `///` cannot start with `//!` unless the
third character is `!`; we only need that `//!` implies `//`. -/
theorem pfx_of_pfx3 {t : String} (h : strHasPfx t "//!" = true) :
    strHasPfx t "//" = true := by
  unfold strHasPfx at h ⊢
  cases hd : t.data with
  | nil => rw [hd] at h; cases h
  | cons a u =>
    cases u with
    | nil => rw [hd] at h; simp [hasPfxL] at h
    | cons b v =>
      rw [hd] at h
      simp only [hasPfxL, Bool.and_eq_true] at h ⊢
      exact ⟨h.1, h.2.1, trivial⟩

/-- C3 (counterexample to the original claim): in the backward doc scan,
the line `let x = 1;` is none of blank, separator, doc comment, ordinary
comment, or attribute, so by the claim it must terminate the scan; yet the
scan continues past it (no doc line has been collected yet) and the
unrelated doc comment above it is extracted. -/
theorem c3_nonterminating_scan_counterexample :
    (jsTrim (stripGrepPrefix "let x = 1;") = "let x = 1;" ∧
     strHasPfx "let x = 1;" "///" = false ∧
     strHasPfx "let x = 1;" "//" = false ∧
     strHasPfx "let x = 1;" "#[" = false ∧
     ("let x = 1;" : String) ≠ "" ∧ ("let x = 1;" : String) ≠ "--") ∧
    extractDoc ["/// Old doc.", "let x = 1;", "fn foo()"] 2 = "Old doc." := by
  exact ⟨⟨by decide, by decide, by decide, by decide, by decide, by decide⟩, by decide⟩

/-- C3 (amended): in the backward doc-comment scan, ordinary-comment lines
and attribute lines are always skipped without terminating the scan, and
every other (non-blank, non-separator, non-doc-comment) line terminates
the scan only when at least one doc line has already been collected;
before the first doc line such a line is skipped as well. -/
theorem c3_docScan_step (lines : List String) (fuel j : Nat) (acc : List String) :
    ((strHasPfx (jsTrim (stripGrepPrefix (lines.getD j ""))) "//" = true ∧
      strHasPfx (jsTrim (stripGrepPrefix (lines.getD j ""))) "///" = false) ∨
      strHasPfx (jsTrim (stripGrepPrefix (lines.getD j ""))) "#[" = true →
      docScanAux lines (fuel + 1) j acc = docScanAux lines fuel (j - 1) acc) ∧
    (jsTrim (stripGrepPrefix (lines.getD j "")) ≠ "" →
     jsTrim (stripGrepPrefix (lines.getD j "")) ≠ "--" →
     strHasPfx (jsTrim (stripGrepPrefix (lines.getD j ""))) "///" = false →
     strHasPfx (jsTrim (stripGrepPrefix (lines.getD j ""))) "//" = false →
     strHasPfx (jsTrim (stripGrepPrefix (lines.getD j ""))) "#[" = false →
      docScanAux lines (fuel + 1) j acc =
        if acc.isEmpty then docScanAux lines fuel (j - 1) acc else acc) := by
  set t := jsTrim (stripGrepPrefix (lines.getD j "")) with ht
  constructor
  · intro h
    rcases h with ⟨hc, h3⟩ | ha
    · have hne := comment_shape hc
      simp only [docScanAux, ← ht]
      rw [if_neg (by push_neg; exact ⟨hne.2, hne.1⟩)]
      rw [if_neg (by simp [h3])]
      rw [if_pos (Or.inr hc)]
    · rcases attr_shape ha with ⟨h1, h2, h3, h4, h5⟩
      simp only [docScanAux, ← ht]
      rw [if_neg (by push_neg; exact ⟨h2, h1⟩)]
      rw [if_neg (by simp [h3])]
      rw [if_neg (by push_neg; exact ⟨by simp [h4], by simp [h5]⟩)]
      rw [if_pos ha]
  · intro h1 h2 h3 h4 h5
    have h6 : strHasPfx t "//!" = false := by
      cases hx : strHasPfx t "//!" with
      | false => rfl
      | true =>
        rw [pfx_of_pfx3 hx] at h4
        cases h4
    simp only [docScanAux, ← ht]
    rw [if_neg (by push_neg; exact ⟨h2, h1⟩)]
    rw [if_neg (by simp [h3])]
    rw [if_neg (by push_neg; exact ⟨by simp [h6], by simp [h4]⟩)]
    rw [if_neg (by simp [h5])]

/-- Witness for the amended C3: a comment line is skipped, and an "other"
line with a non-empty accumulator terminates the scan. -/
theorem c3_docScan_step_witness :
    docScanAux ["// note"] 1 0 [] = docScanAux ["// note"] 0 (0 - 1) [] ∧
    docScanAux ["let y = 2;"] 1 0 ["d"] = ["d"] := by
  constructor
  · exact (c3_docScan_step ["// note"] 0 0 []).1 (Or.inl ⟨by decide, by decide⟩)
  · have h := (c3_docScan_step ["let y = 2;"] 0 0 ["d"]).2 (by decide) (by decide)
      (by decide) (by decide) (by decide)
    simpa using h

/-- C4: the final impl-block list of the parse equals the spec-side
grouping (every retained method between a block header and the next block
header is attached to the former block), and no block in the final result
has zero attached methods. -/
theorem c4_grouping (lines : List String) :
    (parseGrepOutput lines).2 = groupedBlocks lines ∧
      ((parseGrepOutput lines).2.all (fun b => !b.methods.isEmpty)) = true := by
  refine ⟨parseGrep_blocks_eq lines, ?_⟩
  rw [parseGrep_blocks_eq lines]
  exact groupedBlocks_all_nonempty lines

/-- C5: no Method Record whose signature starts with an underscore is ever
created: neither the flat method list nor any impl block's method list of
`parseGrepOutput` contains one, for every input region. -/
theorem c5_no_underscore (lines : List String) :
    ((parseGrepOutput lines).1.all (fun m => !strHasPfx m.signature "_")) = true ∧
      ((parseGrepOutput lines).2.all
        (fun b => b.methods.all (fun m => !strHasPfx m.signature "_"))) = true := by
  constructor
  · rw [List.all_eq_true]
    intro m hm
    rcases mem_flatMethods hm with ⟨i, hi⟩
    have h := (methodAt_props hi).2.1
    simp [h]
  · rw [List.all_eq_true]
    intro b hb
    rw [List.all_eq_true]
    intro m hm
    rcases mem_blockMethods hb hm with ⟨i, hi⟩
    have h := (methodAt_props hi).2.1
    simp [h]

/-- C9: every Method Record produced by the parse has a non-empty
signature that contains no opening brace and no run of two or more
consecutive whitespace characters. -/
theorem c9_signature_invariant (lines : List String) :
    ((parseGrepOutput lines).1.all
      (fun m => !(m.signature = "") && !containsChar m.signature charLBrace &&
        noTwoWs m.signature)) = true ∧
      ((parseGrepOutput lines).2.all
        (fun b => b.methods.all
          (fun m => !(m.signature = "") && !containsChar m.signature charLBrace &&
            noTwoWs m.signature))) = true := by
  constructor
  · rw [List.all_eq_true]
    intro m hm
    rcases mem_flatMethods hm with ⟨i, hi⟩
    rcases methodAt_props hi with ⟨h1, _, h3, h4⟩
    simp [h1, h3, h4]
  · rw [List.all_eq_true]
    intro b hb
    rw [List.all_eq_true]
    intro m hm
    rcases mem_blockMethods hb hm with ⟨i, hi⟩
    rcases methodAt_props hi with ⟨h1, _, h3, h4⟩
    simp [h1, h3, h4]

/-- C7: the extracted documentation is always at most `MIN_DOC_SENTENCES`
(= 3) doc lines joined by single spaces; in particular, five consecutive
doc-comment lines before a method yield exactly the first three, joined by
single spaces. -/
theorem c7_doc_paragraph_bounded :
    (∀ (lines : List String) (i : Nat),
      ∃ ds : List String, extractDoc lines i = String.intercalate " " ds ∧
        ds.length ≤ MIN_DOC_SENTENCES) ∧
    extractDoc ["/// One one.", "/// Two two.", "/// Three three.", "/// Four four.",
      "/// Five five.", "fn f()"] 5 = "One one. Two two. Three three." := by
  constructor
  · intro lines i
    unfold extractDoc
    cases hE : docScanAux lines (min i MAX_DOC_LINES_TO_SCAN) (i - 1) [] with
    | nil =>
      refine ⟨[], ?_, by simp⟩
      simp only [hE, List.isEmpty_nil, if_true]
      rfl
    | cons d ds =>
      refine ⟨firstPara (d :: ds), by simp [hE], ?_⟩
      simpa using firstParaAux_length (d :: ds) 0 (by decide)
  · decide

/-- One continuation step: a non-blank, non-separator line without a brace
is appended and the collection continues. -/
theorem collectContAux_step_cont (lines : List String) (fuel k : Nat) (sig : String)
    (ha : jsTrim (stripGrepPrefix (lines.getD k "")) ≠ "")
    (hb : jsTrim (stripGrepPrefix (lines.getD k "")) ≠ "--")
    (hc : containsChar (jsTrim (stripGrepPrefix (lines.getD k ""))) charLBrace = false) :
    collectContAux lines (fuel + 1) k sig =
      collectContAux lines fuel (k + 1)
        (sig ++ " " ++ jsTrim (stripGrepPrefix (lines.getD k ""))) := by
  simp only [collectContAux]
  rw [if_neg (by push_neg; exact ⟨hb, ha⟩), if_neg (by rw [hc]; exact Bool.false_ne_true)]

/-- Final continuation step: a line containing a brace is appended and the
collection stops. -/
theorem collectContAux_step_stop (lines : List String) (fuel k : Nat) (sig : String)
    (ha : jsTrim (stripGrepPrefix (lines.getD k "")) ≠ "")
    (hb : jsTrim (stripGrepPrefix (lines.getD k "")) ≠ "--")
    (hc : containsChar (jsTrim (stripGrepPrefix (lines.getD k ""))) charLBrace = true) :
    collectContAux lines (fuel + 1) k sig =
      sig ++ " " ++ jsTrim (stripGrepPrefix (lines.getD k "")) := by
  simp only [collectContAux]
  rw [if_neg (by push_neg; exact ⟨hb, ha⟩), if_pos hc]

/-- C6 (amended): for a method header split across three lines whose final
line ends in `) -> Result<T, E> {`, the produced signature equals the
single-line concatenation of the trimmed lines joined by single spaces,
truncated before the `{` delimiter, with whitespace runs collapsed to
single spaces and with spaces immediately after `(` or immediately before
`)` removed. -/
theorem c6_sig_reconstruction (l1 l2 l3 raw : String)
    (h1 : containsChar (jsTrim raw) charLBrace = false)
    (h2 : strEndsWith (jsTrim raw) ")" = false)
    (h3 : jsTrim (stripGrepPrefix l2) ≠ "")
    (h4 : jsTrim (stripGrepPrefix l2) ≠ "--")
    (h5 : containsChar (jsTrim (stripGrepPrefix l2)) charLBrace = false)
    (h6 : jsTrim (stripGrepPrefix l3) ≠ "")
    (h7 : jsTrim (stripGrepPrefix l3) ≠ "--")
    (h8 : strEndsWith (jsTrim (stripGrepPrefix l3)) ") -> Result<T, E> \x7b" = true) :
    buildSignature [l1, l2, l3] 0 raw =
      collapseWs (parenCloseFix (parenOpenFix (jsTrim (truncAtBrace
        (jsTrim raw ++ " " ++ jsTrim (stripGrepPrefix l2) ++ " " ++
          jsTrim (stripGrepPrefix l3)))))) := by
  have h9 : containsChar (jsTrim (stripGrepPrefix l3)) charLBrace = true :=
    containsChar_of_endsWith h8 (by decide)
  have g2 : ([l1, l2, l3] : List String).getD 1 "" = l2 := rfl
  have g3 : ([l1, l2, l3] : List String).getD 2 "" = l3 := rfl
  have hc2 : collectContAux [l1, l2, l3] 2 1 (jsTrim raw) =
      jsTrim raw ++ " " ++ jsTrim (stripGrepPrefix l2) ++ " " ++
        jsTrim (stripGrepPrefix l3) := by
    rw [show (2 : Nat) = 1 + 1 from rfl]
    rw [collectContAux_step_cont [l1, l2, l3] 1 1 (jsTrim raw)
      (by rw [g2]; exact h3) (by rw [g2]; exact h4) (by rw [g2]; exact h5)]
    rw [show (1 : Nat) = 0 + 1 from rfl]
    rw [collectContAux_step_stop [l1, l2, l3] 0 (1 + 1) _
      (by rw [show ((1:Nat) + 1) = 2 from rfl, g3]; exact h6)
      (by rw [show ((1:Nat) + 1) = 2 from rfl, g3]; exact h7)
      (by rw [show ((1:Nat) + 1) = 2 from rfl, g3]; exact h9)]
    rw [show ((1:Nat) + 1) = 2 from rfl, g2, g3]
  simp only [buildSignature]
  have hcond : (!containsChar (jsTrim raw) charLBrace &&
      !strEndsWith (jsTrim raw) ")") = true := by
    rw [h1, h2]
    rfl
  rw [if_pos hcond]
  have e0 : min (List.length [l1, l2, l3]) (0 + MAX_SIGNATURE_CONTINUATION_LINES) -
      (0 + 1) = 2 := rfl
  rw [e0, show (0 : Nat) + 1 = 1 from rfl, hc2]
  have hsum : containsChar
      (jsTrim raw ++ " " ++ jsTrim (stripGrepPrefix l2) ++ " " ++
        jsTrim (stripGrepPrefix l3)) charLBrace = true := by
    rw [containsChar_append, h9]
    simp
  rw [if_pos hsum]

/-- C6 (counterexample to the original claim): for the three-line header
`fn foo(a: u32,` / `b: u32` / `) -> Result<T, E> {` (whose final line ends
in `) -> Result<T, E> {`), the produced signature removes the space before
`)`, so it differs from the plain whitespace-collapsed concatenation
truncated before the brace, which keeps `u32 )`. -/
theorem c6_sig_counterexample :
    strEndsWith (jsTrim (stripGrepPrefix ") -> Result<T, E> \x7b"))
      ") -> Result<T, E> \x7b" = true ∧
    (parseGrepOutput ["fn foo(a: u32,", "b: u32", ") -> Result<T, E> \x7b"]).1.map
      (fun m => m.signature) = ["foo(a: u32, b: u32) -> Result<T, E>"] ∧
    collapseWs (jsTrim (truncAtBrace ("foo(a: u32," ++ " " ++ "b: u32" ++ " " ++
      ") -> Result<T, E> \x7b"))) = "foo(a: u32, b: u32 ) -> Result<T, E>" ∧
    ("foo(a: u32, b: u32) -> Result<T, E>" : String) ≠
      "foo(a: u32, b: u32 ) -> Result<T, E>" := by
  exact ⟨by decide, by decide, by decide, by decide⟩

/-- Witness for the amended C6 at a concrete three-line header. -/
theorem c6_sig_reconstruction_witness :
    buildSignature ["fn foo(a: u32,", "b: u32,", "c: u32) -> Result<T, E> \x7b"] 0
      "foo(a: u32," =
      collapseWs (parenCloseFix (parenOpenFix (jsTrim (truncAtBrace
        (jsTrim "foo(a: u32," ++ " " ++ jsTrim (stripGrepPrefix "b: u32,") ++ " " ++
          jsTrim (stripGrepPrefix "c: u32) -> Result<T, E> \x7b")))))) :=
  c6_sig_reconstruction "fn foo(a: u32," "b: u32," "c: u32) -> Result<T, E> \x7b"
    "foo(a: u32," (by decide) (by decide) (by decide) (by decide) (by decide)
    (by decide) (by decide) (by decide)
